import Mathlib

/-!
Verification development for the DONUTS frame-offset prototype (`donuts.py`).

The source computes sub-pixel translational shifts between a reference
astronomical image and a check image: border crop, optional tile-median
background subtraction, optional exposure normalisation, 1-D projections,
circular cross-correlation of the projections through the Fourier domain,
and quadratic sub-pixel refinement around the correlation peak.

The embedding below models the numerical pipeline exactly over `ℚ`
(projections, polynomial fits, branch logic) and over `Cq` — complex
numbers with rational parts — for the Fourier steps.  The discrete
Fourier transform is parametrised by the root of unity `ω`; theorems
take the defining properties of a primitive root as hypotheses, and
witnesses instantiate `ω = i` at length 4, where the transform is exact
over `Cq`.

Notes on source fidelity: `donuts.py` has `from __future__ import
division`, so every `/` in it is true division; slice bounds that are
Python floats are truncated by the era's numpy, modelled with `Int.floor`;
Python's negative indexing `l[-k]` is modelled by `pyGet`.  The local
names `dx`, `dy`, `ref_data` and the unqualified call to
`__generate_bkg_map` inside the class body are read as `self.dx`,
`self.dy`, `self.ref_data`, `self.__generate_bkg_map`, which is their
evident intent (the file as written raises NameError on those lines; the
claims whose truth rests on such defects record them explicitly).
-/

set_option maxHeartbeats 1600000

/-- Complex numbers with rational real and imaginary parts.  Models the
complex values produced by `scipy.fftpack.fft`/`ifft` exactly. -/
structure Cq where
  re : ℚ
  im : ℚ
deriving DecidableEq

@[ext] theorem Cq.ext {a b : Cq} (hre : a.re = b.re) (him : a.im = b.im) : a = b := by
  cases a; cases b; simp_all

instance : Zero Cq := ⟨⟨0, 0⟩⟩

instance : One Cq := ⟨⟨1, 0⟩⟩

instance : Add Cq := ⟨fun a b => ⟨a.re + b.re, a.im + b.im⟩⟩

instance : Neg Cq := ⟨fun a => ⟨-a.re, -a.im⟩⟩

instance : Sub Cq := ⟨fun a b => ⟨a.re - b.re, a.im - b.im⟩⟩

instance : Mul Cq := ⟨fun a b => ⟨a.re * b.re - a.im * b.im, a.re * b.im + a.im * b.re⟩⟩

@[simp] theorem Cq.zero_re : (0 : Cq).re = 0 := rfl

@[simp] theorem Cq.zero_im : (0 : Cq).im = 0 := rfl

@[simp] theorem Cq.one_re : (1 : Cq).re = 1 := rfl

@[simp] theorem Cq.one_im : (1 : Cq).im = 0 := rfl

@[simp] theorem Cq.add_re (a b : Cq) : (a + b).re = a.re + b.re := rfl

@[simp] theorem Cq.add_im (a b : Cq) : (a + b).im = a.im + b.im := rfl

@[simp] theorem Cq.neg_re (a : Cq) : (-a).re = -a.re := rfl

@[simp] theorem Cq.neg_im (a : Cq) : (-a).im = -a.im := rfl

@[simp] theorem Cq.sub_re (a b : Cq) : (a - b).re = a.re - b.re := rfl

@[simp] theorem Cq.sub_im (a b : Cq) : (a - b).im = a.im - b.im := rfl

@[simp] theorem Cq.mul_re (a b : Cq) : (a * b).re = a.re * b.re - a.im * b.im := rfl

@[simp] theorem Cq.mul_im (a b : Cq) : (a * b).im = a.re * b.im + a.im * b.re := rfl

instance : CommRing Cq where
  add_assoc a b c := by ext <;> simp <;> ring
  zero_add a := by ext <;> simp
  add_zero a := by ext <;> simp
  add_comm a b := by ext <;> simp <;> ring
  left_distrib a b c := by ext <;> simp <;> ring
  right_distrib a b c := by ext <;> simp <;> ring
  zero_mul a := by ext <;> simp
  mul_zero a := by ext <;> simp
  mul_assoc a b c := by ext <;> simp <;> ring
  one_mul a := by ext <;> simp
  mul_one a := by ext <;> simp
  mul_comm a b := by ext <;> simp <;> ring
  neg_add_cancel a := by ext <;> simp
  sub_eq_add_neg a b := by ext <;> simp <;> ring
  natCast n := ⟨n, 0⟩
  natCast_zero := by ext <;> simp
  natCast_succ n := by ext <;> simp
  intCast n := ⟨n, 0⟩
  intCast_ofNat n := by
    apply Cq.ext
    · show ((Int.ofNat n : ℤ) : ℚ) = ((n : ℕ) : ℚ)
      simp
    · rfl
  intCast_negSucc n := by
    apply Cq.ext
    · show ((Int.negSucc n : ℤ) : ℚ) = -(((n + 1 : ℕ)) : ℚ)
      push_cast [Int.negSucc_eq]
      ring
    · show (0 : ℚ) = -(0 : ℚ)
      simp
  nsmul n a := ⟨n * a.re, n * a.im⟩
  nsmul_zero a := by ext <;> simp
  nsmul_succ n a := by ext <;> simp <;> ring
  zsmul n a := ⟨n * a.re, n * a.im⟩
  zsmul_zero' a := by ext <;> simp
  zsmul_succ' n a := by ext <;> push_cast <;> simp <;> ring
  zsmul_neg' n a := by ext <;> push_cast <;> simp <;> ring

@[simp] theorem Cq.natCast_re (n : ℕ) : (n : Cq).re = n := rfl

@[simp] theorem Cq.natCast_im (n : ℕ) : (n : Cq).im = 0 := rfl

/-- `scipy.conjugate`: complex conjugation. -/
def Cq.conj (z : Cq) : Cq := ⟨z.re, -z.im⟩

@[simp] theorem Cq.conj_re (z : Cq) : z.conj.re = z.re := rfl

@[simp] theorem Cq.conj_im (z : Cq) : z.conj.im = -z.im := rfl

@[simp] theorem Cq.conj_mul (a b : Cq) : (a * b).conj = a.conj * b.conj := by
  ext <;> simp <;> ring

@[simp] theorem Cq.conj_add (a b : Cq) : (a + b).conj = a.conj + b.conj := by
  ext <;> simp <;> ring

@[simp] theorem Cq.conj_one : (1 : Cq).conj = 1 := by ext <;> simp

@[simp] theorem Cq.conj_zero : (0 : Cq).conj = 0 := by ext <;> simp

theorem Cq.conj_pow (z : Cq) (n : ℕ) : (z ^ n).conj = z.conj ^ n := by
  induction n with
  | zero => simp
  | succ n ih => rw [pow_succ, pow_succ, Cq.conj_mul, ih]

theorem Cq.conj_sum {α : Type} (s : Finset α) (f : α → Cq) :
    (∑ a ∈ s, f a).conj = ∑ a ∈ s, (f a).conj := by
  classical
  induction s using Finset.cons_induction with
  | empty => simp
  | cons a s ha ih => rw [Finset.sum_cons, Finset.sum_cons, Cq.conj_add, ih]

/-- Embeds a real (rational) value as a complex value, as numpy does when a
real array enters `fft`. -/
def Cq.ofRat (q : ℚ) : Cq := ⟨q, 0⟩

@[simp] theorem Cq.ofRat_re (q : ℚ) : (Cq.ofRat q).re = q := rfl

@[simp] theorem Cq.ofRat_im (q : ℚ) : (Cq.ofRat q).im = 0 := rfl

@[simp] theorem Cq.ofRat_add (a b : ℚ) : Cq.ofRat (a + b) = Cq.ofRat a + Cq.ofRat b := by
  ext <;> simp

@[simp] theorem Cq.ofRat_mul (a b : ℚ) : Cq.ofRat (a * b) = Cq.ofRat a * Cq.ofRat b := by
  ext <;> simp

@[simp] theorem Cq.conj_ofRat (q : ℚ) : (Cq.ofRat q).conj = Cq.ofRat q := by
  ext <;> simp

theorem Cq.ofRat_sum {α : Type} (s : Finset α) (f : α → ℚ) :
    Cq.ofRat (∑ a ∈ s, f a) = ∑ a ∈ s, Cq.ofRat (f a) := by
  classical
  induction s using Finset.cons_induction with
  | empty => ext <;> simp
  | cons a s ha ih => rw [Finset.sum_cons, Finset.sum_cons, Cq.ofRat_add, ih]

theorem Cq.ofRat_natCast (n : ℕ) : Cq.ofRat (n : ℚ) = (n : Cq) := by
  ext <;> simp

/- ## List access helpers -/

theorem mapRange_getD {α : Type} (f : ℕ → α) (n k : ℕ) (d : α) (hk : k < n) :
    ((List.range n).map f).getD k d = f k := by
  rw [List.getD_eq_getElem?_getD, List.getElem?_map, List.getElem?_range hk]
  rfl

theorem map_conj_getD (l : List Cq) (k : ℕ) (hk : k < l.length) :
    (l.map Cq.conj).getD k 0 = (l.getD k 0).conj := by
  rw [List.getD_eq_getElem?_getD, List.getElem?_map, List.getElem?_eq_getElem hk,
    List.getD_eq_getElem?_getD, List.getElem?_eq_getElem hk]
  rfl

theorem map_ofRat_getD (l : List ℚ) (k : ℕ) (hk : k < l.length) :
    (l.map Cq.ofRat).getD k 0 = Cq.ofRat (l.getD k 0) := by
  rw [List.getD_eq_getElem?_getD, List.getElem?_map, List.getElem?_eq_getElem hk,
    List.getD_eq_getElem?_getD, List.getElem?_eq_getElem hk]
  rfl

theorem zipWith_mul_getD (l1 l2 : List Cq) (k : ℕ) (h1 : k < l1.length) (h2 : k < l2.length) :
    (List.zipWith (· * ·) l1 l2).getD k 0 = l1.getD k 0 * l2.getD k 0 := by
  rw [List.getD_eq_getElem?_getD, List.getElem?_zipWith, List.getElem?_eq_getElem h1,
    List.getElem?_eq_getElem h2, List.getD_eq_getElem?_getD, List.getElem?_eq_getElem h1,
    List.getD_eq_getElem?_getD, List.getElem?_eq_getElem h2]
  rfl

/- ## Discrete Fourier transform (scipy.fftpack.fft / ifft), parametrised by the
forward root of unity ω = exp(-2πi/n).  At n = 4 the root is ω = -i and the
transform is exact over `Cq`. -/

/-- `fft(x)`: X_k = Σ_j ω^(k·j)·x_j, k = 0..n-1. -/
def np_fft (ω : Cq) (x : List Cq) : List Cq :=
  (List.range x.length).map fun k =>
    ∑ j ∈ Finset.range x.length, ω ^ (k * j) * x.getD j 0

/-- `ifft(X)`: x_m = (1/n)·Σ_k conj(ω)^(k·m)·X_k, m = 0..n-1. -/
def np_ifft (ω : Cq) (X : List Cq) : List Cq :=
  (List.range X.length).map fun m =>
    Cq.ofRat (1 / (X.length : ℚ)) * ∑ k ∈ Finset.range X.length, ω.conj ^ (k * m) * X.getD k 0

/-- Lines 115–126 of donuts.py, one axis: the correlation sequence
`Phi = ifft(conjugate(fft(ref_proj)) * fft(check_proj))`. -/
def crossCorr (ω : Cq) (ref check : List ℚ) : List Cq :=
  np_ifft ω (List.zipWith (· * ·)
    ((np_fft ω (ref.map Cq.ofRat)).map Cq.conj)
    (np_fft ω (check.map Cq.ofRat)))

theorem np_fft_length (ω : Cq) (x : List Cq) : (np_fft ω x).length = x.length := by
  simp [np_fft]

theorem np_ifft_length (ω : Cq) (X : List Cq) : (np_ifft ω X).length = X.length := by
  simp [np_ifft]

theorem crossCorr_length (ω : Cq) (x y : List ℚ) :
    (crossCorr ω x y).length = min x.length y.length := by
  simp [crossCorr, np_ifft, np_fft]

/- ## Root-of-unity facts -/

theorem conj_eq_pow (ω : Cq) (L : ℕ) (hL : 1 ≤ L) (h1 : ω ^ L = 1) (hu : ω.conj * ω = 1) :
    ω.conj = ω ^ (L - 1) := by
  have hsplit : ω ^ L = ω ^ (L - 1) * ω := by
    conv_lhs => rw [show L = (L - 1) + 1 by omega]
    rw [pow_succ]
  calc ω.conj = ω.conj * ω ^ L := by rw [h1, mul_one]
    _ = (ω.conj * ω) * ω ^ (L - 1) := by rw [hsplit]; ring
    _ = ω ^ (L - 1) := by rw [hu, one_mul]

theorem geom_ortho (ω : Cq) (L : ℕ) (h1 : ω ^ L = 1)
    (ho : ∀ d : ℕ, d % L ≠ 0 → ∑ k ∈ Finset.range L, ω ^ (k * d) = 0) (d : ℕ) :
    ∑ k ∈ Finset.range L, ω ^ (k * d) = if d % L = 0 then (L : Cq) else 0 := by
  by_cases hd : d % L = 0
  · obtain ⟨c, hc⟩ := Nat.dvd_of_mod_eq_zero hd
    have hone : ∀ k ∈ Finset.range L, ω ^ (k * d) = 1 := by
      intro k _
      rw [hc, show k * (L * c) = L * (k * c) by ring, pow_mul, h1, one_pow]
    rw [Finset.sum_congr rfl hone]
    simp [hd, Finset.sum_const, Finset.card_range]
  · rw [ho d hd, if_neg hd]

theorem rootExp_mod_iff (L l m j : ℕ) (hL : 0 < L) (hl : l < L) :
    ((L - 1) * (m + j) + l) % L = 0 ↔ l = (m + j) % L := by
  haveI : NeZero L := ⟨by omega⟩
  rw [← Nat.dvd_iff_mod_eq_zero, ← ZMod.natCast_zmod_eq_zero_iff_dvd]
  have hcast : (((L - 1) * (m + j) + l : ℕ) : ZMod L) = (l : ZMod L) - ((m + j : ℕ) : ZMod L) := by
    push_cast [Nat.cast_sub (by omega : 1 ≤ L)]
    rw [ZMod.natCast_self]
    ring
  rw [hcast, sub_eq_zero]
  constructor
  · intro h
    have hval := congrArg ZMod.val h
    rw [ZMod.val_cast_of_lt hl, ZMod.val_natCast] at hval
    exact hval
  · intro h
    rw [h, ZMod.natCast_mod]

/- ## The circular cross-correlation identity -/

/-- Sample-domain circular cross-correlation: Σ_j ref_j · check_((m+j) mod L).
This is the spec's description of what the Fourier pipeline computes. -/
def ccorrSample (ref check : List ℚ) (m : ℕ) : ℚ :=
  ∑ j ∈ Finset.range ref.length, ref.getD j 0 * check.getD ((m + j) % ref.length) 0

theorem correlation_sum_eval (ω : Cq) (L : ℕ) (hL : 0 < L) (h1 : ω ^ L = 1)
    (hu : ω.conj * ω = 1)
    (ho : ∀ d : ℕ, d % L ≠ 0 → ∑ k ∈ Finset.range L, ω ^ (k * d) = 0)
    (X Y : ℕ → Cq) (m : ℕ) :
    ∑ k ∈ Finset.range L, ω.conj ^ (k * m) *
        ((∑ j ∈ Finset.range L, ω.conj ^ (k * j) * X j) *
         (∑ l ∈ Finset.range L, ω ^ (k * l) * Y l))
      = (L : Cq) * ∑ j ∈ Finset.range L, X j * Y ((m + j) % L) := by
  have hc : ω.conj = ω ^ (L - 1) := conj_eq_pow ω L hL h1 hu
  have hterm : ∀ k j l : ℕ,
      ω.conj ^ (k * m) * ((ω.conj ^ (k * j) * X j) * (ω ^ (k * l) * Y l))
        = (X j * Y l) * ω ^ (k * ((L - 1) * (m + j) + l)) := by
    intro k j l
    rw [hc, ← pow_mul, ← pow_mul]
    ring
  calc
    ∑ k ∈ Finset.range L, ω.conj ^ (k * m) *
        ((∑ j ∈ Finset.range L, ω.conj ^ (k * j) * X j) *
         (∑ l ∈ Finset.range L, ω ^ (k * l) * Y l))
      = ∑ k ∈ Finset.range L, ∑ j ∈ Finset.range L, ∑ l ∈ Finset.range L,
          (X j * Y l) * ω ^ (k * ((L - 1) * (m + j) + l)) := by
        refine Finset.sum_congr rfl fun k _ => ?_
        rw [Finset.sum_mul_sum, Finset.mul_sum]
        refine Finset.sum_congr rfl fun j _ => ?_
        rw [Finset.mul_sum]
        exact Finset.sum_congr rfl fun l _ => hterm k j l
    _ = ∑ j ∈ Finset.range L, ∑ l ∈ Finset.range L,
          (X j * Y l) * ∑ k ∈ Finset.range L, ω ^ (k * ((L - 1) * (m + j) + l)) := by
        rw [Finset.sum_comm]
        refine Finset.sum_congr rfl fun j _ => ?_
        rw [Finset.sum_comm]
        exact Finset.sum_congr rfl fun l _ => (Finset.mul_sum _ _ _).symm
    _ = ∑ j ∈ Finset.range L, ∑ l ∈ Finset.range L,
          if l = (m + j) % L then (X j * Y l) * (L : Cq) else 0 := by
        refine Finset.sum_congr rfl fun j _ => Finset.sum_congr rfl fun l hl => ?_
        rw [geom_ortho ω L h1 ho]
        have hiff := rootExp_mod_iff L l m j hL (Finset.mem_range.mp hl)
        by_cases hcond : l = (m + j) % L
        · rw [if_pos (hiff.mpr hcond), if_pos hcond]
        · rw [if_neg (fun hh => hcond (hiff.mp hh)), if_neg hcond, mul_zero]
    _ = ∑ j ∈ Finset.range L, (X j * Y ((m + j) % L)) * (L : Cq) := by
        refine Finset.sum_congr rfl fun j _ => ?_
        rw [Finset.sum_ite_eq' (Finset.range L) ((m + j) % L) (fun l => X j * Y l * (L : Cq))]
        rw [if_pos (Finset.mem_range.mpr (Nat.mod_lt _ hL))]
    _ = (L : Cq) * ∑ j ∈ Finset.range L, X j * Y ((m + j) % L) := by
        rw [← Finset.sum_mul, mul_comm]

theorem np_fft_getD (ω : Cq) (x : List Cq) (k : ℕ) (hk : k < x.length) :
    (np_fft ω x).getD k 0 = ∑ j ∈ Finset.range x.length, ω ^ (k * j) * x.getD j 0 := by
  rw [np_fft]
  exact mapRange_getD _ _ _ _ hk

theorem np_ifft_getD (ω : Cq) (X : List Cq) (m : ℕ) (hm : m < X.length) :
    (np_ifft ω X).getD m 0
      = Cq.ofRat (1 / (X.length : ℚ)) *
          ∑ k ∈ Finset.range X.length, ω.conj ^ (k * m) * X.getD k 0 := by
  rw [np_ifft]
  exact mapRange_getD _ _ _ _ hm

/-- The Fourier pipeline of `measure_shift` computes, in exact arithmetic, the
sample-domain circular cross-correlation: entry `m` of
`ifft(conjugate(fft ref) * fft check)` is `Σ_j ref_j · check_((m+j) mod L)`,
a real number. -/
theorem crossCorr_getD (ω : Cq) (x y : List ℚ) (hlen : y.length = x.length)
    (h1 : ω ^ x.length = 1) (hu : ω.conj * ω = 1)
    (ho : ∀ d : ℕ, d % x.length ≠ 0 → ∑ k ∈ Finset.range x.length, ω ^ (k * d) = 0)
    (m : ℕ) (hm : m < x.length) :
    (crossCorr ω x y).getD m 0 = Cq.ofRat (ccorrSample x y m) := by
  have hL : 0 < x.length := Nat.lt_of_le_of_lt (Nat.zero_le m) hm
  have hfx : (np_fft ω (x.map Cq.ofRat)).length = x.length := by
    rw [np_fft_length, List.length_map]
  have hfy : (np_fft ω (y.map Cq.ofRat)).length = x.length := by
    rw [np_fft_length, List.length_map, hlen]
  have hz : (List.zipWith (· * ·) ((np_fft ω (x.map Cq.ofRat)).map Cq.conj)
      (np_fft ω (y.map Cq.ofRat))).length = x.length := by
    rw [List.length_zipWith, List.length_map, hfx, hfy, Nat.min_self]
  have hZk : ∀ k, k < x.length →
      (List.zipWith (· * ·) ((np_fft ω (x.map Cq.ofRat)).map Cq.conj)
        (np_fft ω (y.map Cq.ofRat))).getD k 0
      = (∑ j ∈ Finset.range x.length, ω.conj ^ (k * j) * Cq.ofRat (x.getD j 0)) *
        (∑ l ∈ Finset.range x.length, ω ^ (k * l) * Cq.ofRat (y.getD l 0)) := by
    intro k hk
    rw [zipWith_mul_getD _ _ _ (by rw [List.length_map, hfx]; exact hk) (by rw [hfy]; exact hk)]
    rw [map_conj_getD _ _ (by rw [hfx]; exact hk)]
    rw [np_fft_getD _ _ _ (by rw [List.length_map]; exact hk)]
    rw [np_fft_getD _ _ _ (by rw [List.length_map, hlen]; exact hk)]
    rw [Cq.conj_sum]
    congr 1
    · rw [List.length_map]
      refine Finset.sum_congr rfl fun j hj => ?_
      rw [Cq.conj_mul, Cq.conj_pow, map_ofRat_getD _ _ (Finset.mem_range.mp hj), Cq.conj_ofRat]
    · rw [List.length_map, hlen]
      refine Finset.sum_congr rfl fun l hl => ?_
      rw [map_ofRat_getD _ _ (by rw [hlen]; exact Finset.mem_range.mp hl)]
  rw [crossCorr, np_ifft_getD _ _ _ (by rw [hz]; exact hm), hz]
  rw [Finset.sum_congr rfl fun k hk => by
    rw [hZk k (Finset.mem_range.mp hk)]]
  rw [correlation_sum_eval ω x.length hL h1 hu ho _ _ m]
  rw [← mul_assoc, ← Cq.ofRat_natCast, ← Cq.ofRat_mul]
  rw [one_div, inv_mul_cancel₀ (by positivity : ((x.length : ℚ)) ≠ 0)]
  rw [ccorrSample, Cq.ofRat_sum]
  rw [show Cq.ofRat 1 = (1 : Cq) by ext <;> simp, one_mul]
  exact Finset.sum_congr rfl fun j _ => (Cq.ofRat_mul _ _).symm

/- ## Peak location (lines 127–130): `z = max(Phi)`; `z_pos = np.where(Phi == z)`.
Python's builtin `max` on era-numpy complex scalars compares lexicographically
(real part, then imaginary part) and keeps the earliest maximal element;
`np.where(Phi == z)[0][0]` is the first index whose entry equals `z` exactly. -/

def Cq.lexLt (a b : Cq) : Prop := a.re < b.re ∨ (a.re = b.re ∧ a.im < b.im)

instance : DecidableRel Cq.lexLt := fun a b => by
  unfold Cq.lexLt
  infer_instance

/-- One comparison step of Python's `max`: replace the accumulator only on a
strictly greater element, so the earliest maximal element is kept. -/
def pymax (acc z : Cq) : Cq := if Cq.lexLt acc z then z else acc

/-- `max(Phi)` (line 127 / 129). -/
def npMax (l : List Cq) : Cq :=
  match l with
  | [] => 0
  | h :: t => t.foldl pymax h

/-- `z_pos = np.where(Phi == z)[0][0]` (line 128 / 130): first index equal to
the maximum. -/
def zpos (l : List Cq) : ℕ := l.findIdx fun z => decide (z = npMax l)

/-- Spec-side peak selection: the index of the maximum of the real parts,
ties resolved to the first occurrence in increasing-index order. -/
def realMax (l : List Cq) : ℚ :=
  match l with
  | [] => 0
  | h :: t => t.foldl (fun acc z => max acc z.re) h.re

/-- Spec-side argmax: first index attaining the maximal real part. -/
def specArgmaxReal (l : List Cq) : ℕ := l.findIdx fun z => decide (z.re = realMax l)

theorem pymax_real (r : ℚ) (a : Cq) (ha : a.im = 0) :
    pymax ⟨r, 0⟩ a = ⟨max r a.re, 0⟩ := by
  unfold pymax
  by_cases hlt : Cq.lexLt ⟨r, 0⟩ a
  · rw [if_pos hlt]
    have hr : r < a.re := by
      rcases hlt with h1 | ⟨h1, h2⟩
      · exact h1
      · rw [ha] at h2
        exact absurd h2 (lt_irrefl 0)
    exact Cq.ext (max_eq_right (le_of_lt hr)).symm ha
  · rw [if_neg hlt]
    have hr : a.re ≤ r := le_of_not_lt fun hc => hlt (Or.inl hc)
    exact Cq.ext (max_eq_left hr).symm rfl

theorem foldl_pymax_real (t : List Cq) (r : ℚ) (ht : ∀ z ∈ t, z.im = 0) :
    t.foldl pymax ⟨r, 0⟩ = ⟨t.foldl (fun acc z => max acc z.re) r, 0⟩ := by
  induction t generalizing r with
  | nil => rfl
  | cons a t ih =>
    have ha : a.im = 0 := ht a (List.mem_cons_self a t)
    have ht2 : ∀ z ∈ t, z.im = 0 := fun z hz => ht z (List.mem_cons_of_mem a hz)
    simp only [List.foldl_cons]
    rw [pymax_real r a ha, ih (max r a.re) ht2]

theorem npMax_real (l : List Cq) (hl : ∀ z ∈ l, z.im = 0) :
    npMax l = ⟨realMax l, 0⟩ := by
  cases l with
  | nil => rfl
  | cons h t =>
    have hh : h.im = 0 := hl h (List.mem_cons_self h t)
    have ht : ∀ z ∈ t, z.im = 0 := fun z hz => hl z (List.mem_cons_of_mem h hz)
    show t.foldl pymax h = _
    rw [show h = (⟨h.re, 0⟩ : Cq) from Cq.ext rfl hh, foldl_pymax_real t h.re ht]
    rfl

theorem findIdx_congr (l : List Cq) (p q : Cq → Bool) (h : ∀ z ∈ l, p z = q z) :
    l.findIdx p = l.findIdx q := by
  induction l with
  | nil => rfl
  | cons a t ih =>
    rw [List.findIdx_cons, List.findIdx_cons, h a (List.mem_cons_self a t),
      ih fun z hz => h z (List.mem_cons_of_mem a hz)]

/-- On an all-real correlation sequence the source's complex peak lookup
coincides with the spec's first-occurrence argmax of the real parts. -/
theorem zpos_eq_specArgmax (l : List Cq) (hreal : ∀ z ∈ l, z.im = 0) :
    zpos l = specArgmaxReal l := by
  unfold zpos specArgmaxReal
  refine findIdx_congr l _ _ fun z hz => ?_
  rw [npMax_real l hreal]
  have hz0 : z.im = 0 := hreal z hz
  by_cases hre : z.re = realMax l
  · rw [decide_eq_true (Cq.ext hre hz0), decide_eq_true hre]
  · rw [decide_eq_false, decide_eq_false hre]
    intro hcontr
    exact hre (congrArg Cq.re hcontr)

theorem foldl_pymax_fixed (t : List Cq) (a : Cq) (h : ∀ z ∈ t, ¬ Cq.lexLt a z) :
    t.foldl pymax a = a := by
  induction t with
  | nil => rfl
  | cons b t ih =>
    simp only [List.foldl_cons]
    rw [show pymax a b = a from if_neg (h b (List.mem_cons_self b t))]
    exact ih fun z hz => h z (List.mem_cons_of_mem b hz)

/-- If no element lexicographically exceeds the head, the source's peak index
is 0 (index 0 carries the maximum and `where` takes the first occurrence). -/
theorem zpos_eq_zero_of_head_max (h0 : Cq) (t : List Cq)
    (h : ∀ z ∈ t, ¬ Cq.lexLt h0 z) : zpos (h0 :: t) = 0 := by
  have hnp : npMax (h0 :: t) = h0 := by
    show t.foldl pymax h0 = h0
    exact foldl_pymax_fixed t h0 h
  unfold zpos
  rw [hnp, List.findIdx_cons]
  simp

/- ## Sub-pixel refinement (lines 135–207) -/

/-- Python array indexing: a negative index counts from the end
(`Phi[-1]` is `Phi[len-1]`). -/
def pyGet (l : List Cq) (i : ℤ) : Cq :=
  if i < 0 then l.getD ((l.length : ℤ) + i).toNat 0 else l.getD i.toNat 0

/-- `polyfit(lra, tst, 2)` on exactly three points: for distinct abscissae the
degree-2 least-squares fit interpolates, with Lagrange-form coefficients.
Returns `(a, b)` of the fitted `a·t² + b·t + c`; the code reads only
`coeffs[0]` = a and `coeffs[1]` = b (the `besty = polyval(...)` locals of the
source are never used and are omitted). -/
def polyfit3 (x0 x1 x2 y0 y1 y2 : ℚ) : ℚ × ℚ :=
  (y0 / ((x0 - x1) * (x0 - x2)) + y1 / ((x1 - x0) * (x1 - x2)) + y2 / ((x2 - x0) * (x2 - x1)),
   -(y0 * (x1 + x2) / ((x0 - x1) * (x0 - x2)) + y1 * (x0 + x2) / ((x1 - x0) * (x1 - x2)) +
     y2 * (x0 + x1) / ((x2 - x0) * (x2 - x1))))

/-- Lines 139–170 (x axis), evaluated at peak index `p`: the chained
`if`/`elif`/`elif`/`else` four-way split of the source. -/
def solutionXAt (Phi : List Cq) (p : ℕ) : ℚ :=
  let L := Phi.length
  if (p : ℚ) ≤ (L : ℚ) / 2 then
    let t0 := (pyGet Phi ((p : ℤ) - 1)).re
    let t1 := (pyGet Phi (p : ℤ)).re
    let t2 := (pyGet Phi ((p : ℤ) + 1)).re
    let c := polyfit3 ((p : ℚ) - 1) (p : ℚ) ((p : ℚ) + 1) t0 t1 t2
    (-(-c.2 / (2 * c.1)))
  else if (L : ℚ) / 2 < (p : ℚ) ∧ p ≠ L - 1 then
    let t0 := (pyGet Phi ((p : ℤ) - 1)).re
    let t1 := (pyGet Phi (p : ℤ)).re
    let t2 := (pyGet Phi ((p : ℤ) + 1)).re
    let c := polyfit3 ((p : ℚ) - 1) (p : ℚ) ((p : ℚ) + 1) t0 t1 t2
    (L : ℚ) + c.2 / (2 * c.1)
  else if p = L - 1 then
    let t0 := (pyGet Phi (-2)).re
    let t1 := (pyGet Phi (-1)).re
    let t2 := (pyGet Phi 0).re
    let c := polyfit3 (-1) 0 1 t0 t1 t2
    1 + c.2 / (2 * c.1)
  else
    let t0 := (pyGet Phi (-1)).re
    let t1 := (pyGet Phi 0).re
    let t2 := (pyGet Phi 1).re
    let c := polyfit3 1 0 (-1) t0 t1 t2
    (-c.2 / (2 * c.1))

/-- Lines 174–205 (y axis), evaluated at peak index `p`.  Unlike the x axis,
the source writes the first two cases as independent `if` statements and only
the last pair as `if/else`, so a later matching branch overwrites the dy of an
earlier one; modelled by sequentially rebinding `sol`. -/
def solutionYAt (Phi : List Cq) (p : ℕ) : ℚ :=
  let L := Phi.length
  let half :=
    let t0 := (pyGet Phi ((p : ℤ) - 1)).re
    let t1 := (pyGet Phi (p : ℤ)).re
    let t2 := (pyGet Phi ((p : ℤ) + 1)).re
    let c := polyfit3 ((p : ℚ) - 1) (p : ℚ) ((p : ℚ) + 1) t0 t1 t2
    (-(-c.2 / (2 * c.1)))
  let upper :=
    let t0 := (pyGet Phi ((p : ℤ) - 1)).re
    let t1 := (pyGet Phi (p : ℤ)).re
    let t2 := (pyGet Phi ((p : ℤ) + 1)).re
    let c := polyfit3 ((p : ℚ) - 1) (p : ℚ) ((p : ℚ) + 1) t0 t1 t2
    (L : ℚ) + c.2 / (2 * c.1)
  let wrapEnd :=
    let t0 := (pyGet Phi (-2)).re
    let t1 := (pyGet Phi (-1)).re
    let t2 := (pyGet Phi 0).re
    let c := polyfit3 (-1) 0 1 t0 t1 t2
    1 + c.2 / (2 * c.1)
  let wrapStart :=
    let t0 := (pyGet Phi (-1)).re
    let t1 := (pyGet Phi 0).re
    let t2 := (pyGet Phi 1).re
    let c := polyfit3 1 0 (-1) t0 t1 t2
    (-c.2 / (2 * c.1))
  let sol0 : ℚ := 0
  let sol1 := if (p : ℚ) ≤ (L : ℚ) / 2 then half else sol0
  let sol2 := if (L : ℚ) / 2 < (p : ℚ) ∧ p ≠ L - 1 then upper else sol1
  let sol3 := if p = L - 1 then wrapEnd else wrapStart
  sol3

/-- `self.solution_n_x` as returned (line 207): x refinement at the located
peak. -/
def solutionX (Phi : List Cq) : ℚ := solutionXAt Phi (zpos Phi)

/-- `self.solution_n_y` as returned (line 207): y refinement at the located
peak. -/
def solutionY (Phi : List Cq) : ℚ := solutionYAt Phi (zpos Phi)

/-- Vertex abscissa −b/(2a) of a fitted quadratic, as described by the spec. -/
def fitVertex (c : ℚ × ℚ) : ℚ := -c.2 / (2 * c.1)

/-- Claim C1's described refiner, written from the claim's own words: a
four-way case split on `p`, identical for both axes, with the specific cases
`p = 0` and `p = L−1` taking precedence over the two half-range cases, samples
taken with circular wraparound, and results `−vertex`, `L + vertex`,
`1 + vertex`, `−vertex` respectively, where `vertex = −b/(2a)` of the
quadratic through the three (coordinate, value) pairs. -/
def claimRefiner (Phi : List Cq) (p : ℕ) : ℚ :=
  let L := Phi.length
  if p = 0 then
    -(fitVertex (polyfit3 1 0 (-1) (pyGet Phi (-1)).re (pyGet Phi 0).re (pyGet Phi 1).re))
  else if p = L - 1 then
    1 + fitVertex (polyfit3 (-1) 0 1 (pyGet Phi (-2)).re (pyGet Phi (-1)).re (pyGet Phi 0).re)
  else if (p : ℚ) ≤ (L : ℚ) / 2 then
    -(fitVertex (polyfit3 ((p : ℚ) - 1) (p : ℚ) ((p : ℚ) + 1)
      (pyGet Phi ((p : ℤ) - 1)).re (pyGet Phi (p : ℤ)).re (pyGet Phi ((p : ℤ) + 1)).re))
  else
    (L : ℚ) + fitVertex (polyfit3 ((p : ℚ) - 1) (p : ℚ) ((p : ℚ) + 1)
      (pyGet Phi ((p : ℤ) - 1)).re (pyGet Phi (p : ℤ)).re (pyGet Phi ((p : ℤ) + 1)).re)

/- ## Branch characterisations of the refiner -/

theorem pyGet_ofNat (l : List Cq) (k : ℕ) : pyGet l (k : ℤ) = l.getD k 0 := by
  unfold pyGet
  rw [if_neg (by omega : ¬ (k : ℤ) < 0), Int.toNat_natCast]

theorem pyGet_neg (l : List Cq) (k : ℕ) (hk : 0 < k) (hkL : k ≤ l.length) :
    pyGet l (-(k : ℤ)) = l.getD (l.length - k) 0 := by
  unfold pyGet
  rw [if_pos (by omega : (-(k : ℤ)) < 0)]
  congr 1
  omega

theorem solutionXAt_case1 (Phi : List Cq) (p : ℕ)
    (h : (p : ℚ) ≤ (Phi.length : ℚ) / 2) :
    solutionXAt Phi p
      = -(fitVertex (polyfit3 ((p : ℚ) - 1) (p : ℚ) ((p : ℚ) + 1)
          (pyGet Phi ((p : ℤ) - 1)).re (pyGet Phi (p : ℤ)).re (pyGet Phi ((p : ℤ) + 1)).re)) := by
  simp only [solutionXAt]
  rw [if_pos h]
  unfold fitVertex
  rfl

theorem solutionXAt_case2 (Phi : List Cq) (p : ℕ)
    (h1 : (Phi.length : ℚ) / 2 < (p : ℚ)) (h2 : p ≠ Phi.length - 1) :
    solutionXAt Phi p
      = (Phi.length : ℚ) - fitVertex (polyfit3 ((p : ℚ) - 1) (p : ℚ) ((p : ℚ) + 1)
          (pyGet Phi ((p : ℤ) - 1)).re (pyGet Phi (p : ℤ)).re (pyGet Phi ((p : ℤ) + 1)).re) := by
  simp only [solutionXAt]
  rw [if_neg (not_le_of_gt h1), if_pos ⟨h1, h2⟩]
  unfold fitVertex
  ring

theorem solutionXAt_case3 (Phi : List Cq) (p : ℕ) (hL : 3 ≤ Phi.length)
    (h : p = Phi.length - 1) :
    solutionXAt Phi p
      = 1 - fitVertex (polyfit3 (-1) 0 1
          (pyGet Phi (-2)).re (pyGet Phi (-1)).re (pyGet Phi 0).re) := by
  have hLq : (3 : ℚ) ≤ (Phi.length : ℚ) := by exact_mod_cast hL
  have hpq : (p : ℚ) = (Phi.length : ℚ) - 1 := by
    rw [h]
    push_cast [Nat.cast_sub (by omega : 1 ≤ Phi.length)]
    ring
  simp only [solutionXAt]
  rw [if_neg (by rw [hpq]; linarith), if_neg (by intro hand; exact hand.2 h), if_pos h]
  unfold fitVertex
  ring

theorem solutionYAt_eq (Phi : List Cq) (p : ℕ) :
    solutionYAt Phi p
      = if p = Phi.length - 1 then
          1 - fitVertex (polyfit3 (-1) 0 1
            (pyGet Phi (-2)).re (pyGet Phi (-1)).re (pyGet Phi 0).re)
        else
          fitVertex (polyfit3 1 0 (-1)
            (pyGet Phi (-1)).re (pyGet Phi 0).re (pyGet Phi 1).re) := by
  simp only [solutionYAt]
  by_cases h : p = Phi.length - 1
  · rw [if_pos h, if_pos h]
    unfold fitVertex
    ring
  · rw [if_neg h, if_neg h]
    unfold fitVertex
    rfl

theorem pyGet_neg_one (l : List Cq) (h : 1 ≤ l.length) :
    pyGet l (-1) = l.getD (l.length - 1) 0 := by
  unfold pyGet
  rw [if_pos (by omega : (-1 : ℤ) < 0)]
  congr 1
  omega

theorem pyGet_neg_two (l : List Cq) (h : 2 ≤ l.length) :
    pyGet l (-2) = l.getD (l.length - 2) 0 := by
  unfold pyGet
  rw [if_pos (by omega : (-2 : ℤ) < 0)]
  congr 1
  omega

theorem pyGet_zero (l : List Cq) : pyGet l 0 = l.getD 0 0 := by
  unfold pyGet
  rw [if_neg (by omega : ¬ (0 : ℤ) < 0)]
  rfl

theorem pyGet_one (l : List Cq) : pyGet l 1 = l.getD 1 0 := by
  unfold pyGet
  rw [if_neg (by omega : ¬ (1 : ℤ) < 0)]
  rfl

/-- C3 (confirmed): for every correlation sequence of length L ≥ 3 in the
y-axis refinement, whenever the peak index is not L−1, the dy that reaches the
return value is the one computed by the final else branch — the quadratic fit
through samples value[L−1], value[0], value[1] at coordinates {1, 0, −1} with
dy = −b/(2a) — overwriting any dy computed by the p ≤ L/2 or L/2 < p < L−1
branches, because the y-axis cases are written as independent if statements
rather than a chained elif (unlike the x axis). -/
theorem C3_y_axis_overwrite (Phi : List Cq) (hL : 3 ≤ Phi.length)
    (hp : zpos Phi ≠ Phi.length - 1) :
    solutionY Phi
      = -(polyfit3 1 0 (-1) (Phi.getD (Phi.length - 1) 0).re (Phi.getD 0 0).re
            (Phi.getD 1 0).re).2 /
        (2 * (polyfit3 1 0 (-1) (Phi.getD (Phi.length - 1) 0).re (Phi.getD 0 0).re
            (Phi.getD 1 0).re).1) := by
  rw [solutionY, solutionYAt_eq, if_neg hp, pyGet_neg_one Phi (by omega),
    pyGet_zero Phi, pyGet_one Phi]
  unfold fitVertex
  rfl

/-- Witness for C3 at a concrete sequence: length 4, peak at index 1 ≠ 3, and
the returned dy is the else-branch fit value 7/2. -/
theorem C3_y_axis_overwrite_witness :
    zpos ([⟨5, 0⟩, ⟨9, 0⟩, ⟨1, 0⟩, ⟨2, 0⟩] : List Cq) ≠ 4 - 1 ∧
    solutionY ([⟨5, 0⟩, ⟨9, 0⟩, ⟨1, 0⟩, ⟨2, 0⟩] : List Cq) = 7 / 2 := by
  constructor
  · decide
  · have h := C3_y_axis_overwrite ([⟨5, 0⟩, ⟨9, 0⟩, ⟨1, 0⟩, ⟨2, 0⟩] : List Cq)
      (by decide) (by decide)
    rw [h]
    norm_num [polyfit3]

/-- C1 counterexample: at the concrete correlation sequence [4, 1, 0, 2, 9]
the peak index is 4 = L−1; the code returns 1 + b/(2a) = 11/12, while the
claim's described refiner (result 1 + vertex with vertex = −b/(2a)) yields
13/12, so the claim as stated is false on the code. -/
theorem C1_counterexample :
    zpos ([⟨4, 0⟩, ⟨1, 0⟩, ⟨0, 0⟩, ⟨2, 0⟩, ⟨9, 0⟩] : List Cq) = 4 ∧
    solutionX ([⟨4, 0⟩, ⟨1, 0⟩, ⟨0, 0⟩, ⟨2, 0⟩, ⟨9, 0⟩] : List Cq) = 11 / 12 ∧
    claimRefiner ([⟨4, 0⟩, ⟨1, 0⟩, ⟨0, 0⟩, ⟨2, 0⟩, ⟨9, 0⟩] : List Cq) 4 = 13 / 12 ∧
    solutionX ([⟨4, 0⟩, ⟨1, 0⟩, ⟨0, 0⟩, ⟨2, 0⟩, ⟨9, 0⟩] : List Cq)
      ≠ claimRefiner ([⟨4, 0⟩, ⟨1, 0⟩, ⟨0, 0⟩, ⟨2, 0⟩, ⟨9, 0⟩] : List Cq)
          (zpos ([⟨4, 0⟩, ⟨1, 0⟩, ⟨0, 0⟩, ⟨2, 0⟩, ⟨9, 0⟩] : List Cq)) := by
  have hz : zpos ([⟨4, 0⟩, ⟨1, 0⟩, ⟨0, 0⟩, ⟨2, 0⟩, ⟨9, 0⟩] : List Cq) = 4 := by decide
  have hx : solutionX ([⟨4, 0⟩, ⟨1, 0⟩, ⟨0, 0⟩, ⟨2, 0⟩, ⟨9, 0⟩] : List Cq) = 11 / 12 := by
    rw [solutionX, hz, solutionXAt_case3 _ 4 (by decide) (by decide),
      pyGet_neg_two _ (by decide), pyGet_neg_one _ (by decide), pyGet_zero]
    norm_num [fitVertex, polyfit3, List.getD_cons_zero, List.getD_cons_succ]
  have hc : claimRefiner ([⟨4, 0⟩, ⟨1, 0⟩, ⟨0, 0⟩, ⟨2, 0⟩, ⟨9, 0⟩] : List Cq) 4 = 13 / 12 := by
    simp only [claimRefiner]
    rw [if_neg (by decide : ¬ (4 : ℕ) = 0),
      if_pos (by decide :
        (4 : ℕ) = ([⟨4, 0⟩, ⟨1, 0⟩, ⟨0, 0⟩, ⟨2, 0⟩, ⟨9, 0⟩] : List Cq).length - 1),
      pyGet_neg_two _ (by decide), pyGet_neg_one _ (by decide), pyGet_zero]
    norm_num [fitVertex, polyfit3, List.getD_cons_zero, List.getD_cons_succ]
  refine ⟨hz, hx, hc, ?_⟩
  rw [hx, hz, hc]
  norm_num

/-- C1 (corrected): the actual refiner behaviour.  For the x axis the split is
the chained three-way one (the written p = 0 else branch is unreachable, since
p = 0 already satisfies p ≤ L/2): for p ≤ L/2 the samples sit at Python
indices p−1, p, p+1 (index −1 wrapping to L−1) with coordinates
{p−1, p, p+1} and result −vertex; for L/2 < p < L−1 the result is
L + b/(2a) = L − vertex; for p = L−1 the samples are value[L−2], value[L−1],
value[0] at coordinates {−1, 0, 1} with result 1 + b/(2a) = 1 − vertex.  The
y axis does not follow the same split: p = L−1 gives 1 − vertex as for x, and
every other p gives −b/(2a) = vertex of the fit through samples value[L−1],
value[0], value[1] at coordinates {1, 0, −1}. -/
theorem C1_refiner_actual (Phi : List Cq) (p : ℕ) (hL : 3 ≤ Phi.length)
    (hp : p < Phi.length) :
    ((p : ℚ) ≤ (Phi.length : ℚ) / 2 →
        solutionXAt Phi p = -(fitVertex (polyfit3 ((p : ℚ) - 1) (p : ℚ) ((p : ℚ) + 1)
          (pyGet Phi ((p : ℤ) - 1)).re (pyGet Phi (p : ℤ)).re (pyGet Phi ((p : ℤ) + 1)).re)))
    ∧ ((Phi.length : ℚ) / 2 < (p : ℚ) → p ≠ Phi.length - 1 →
        solutionXAt Phi p = (Phi.length : ℚ) - fitVertex (polyfit3 ((p : ℚ) - 1) (p : ℚ)
          ((p : ℚ) + 1) (pyGet Phi ((p : ℤ) - 1)).re (pyGet Phi (p : ℤ)).re
          (pyGet Phi ((p : ℤ) + 1)).re))
    ∧ (p = Phi.length - 1 →
        solutionXAt Phi p = 1 - fitVertex (polyfit3 (-1) 0 1
          (Phi.getD (Phi.length - 2) 0).re (Phi.getD (Phi.length - 1) 0).re
          (Phi.getD 0 0).re))
    ∧ (p ≠ Phi.length - 1 →
        solutionYAt Phi p = fitVertex (polyfit3 1 0 (-1)
          (Phi.getD (Phi.length - 1) 0).re (Phi.getD 0 0).re (Phi.getD 1 0).re))
    ∧ (p = Phi.length - 1 →
        solutionYAt Phi p = 1 - fitVertex (polyfit3 (-1) 0 1
          (Phi.getD (Phi.length - 2) 0).re (Phi.getD (Phi.length - 1) 0).re
          (Phi.getD 0 0).re)) := by
  refine ⟨fun h => solutionXAt_case1 Phi p h,
    fun h1 h2 => solutionXAt_case2 Phi p h1 h2,
    fun h => ?_, fun h => ?_, fun h => ?_⟩
  · rw [solutionXAt_case3 Phi p hL h, pyGet_neg_two Phi (by omega),
      pyGet_neg_one Phi (by omega), pyGet_zero Phi]
  · rw [solutionYAt_eq, if_neg h, pyGet_neg_one Phi (by omega), pyGet_zero Phi,
      pyGet_one Phi]
  · rw [solutionYAt_eq, if_pos h, pyGet_neg_two Phi (by omega),
      pyGet_neg_one Phi (by omega), pyGet_zero Phi]

/-- Witness for C1's amended statement: at the concrete sequence
[3, 7, 2, 1, 1] with peak index 1 (in the p ≤ L/2 case), the x refinement
equals the negated fitted vertex, −17/18. -/
theorem C1_refiner_actual_witness :
    solutionXAt ([⟨3, 0⟩, ⟨7, 0⟩, ⟨2, 0⟩, ⟨1, 0⟩, ⟨1, 0⟩] : List Cq) 1 = -(17 / 18) := by
  have h := (C1_refiner_actual ([⟨3, 0⟩, ⟨7, 0⟩, ⟨2, 0⟩, ⟨1, 0⟩, ⟨1, 0⟩] : List Cq) 1
    (by decide) (by decide)).1 (by norm_num)
  rw [h]
  rw [show ((1 : ℕ) : ℤ) - 1 = ((0 : ℕ) : ℤ) by norm_num,
    show ((1 : ℕ) : ℤ) + 1 = ((2 : ℕ) : ℤ) by norm_num, pyGet_ofNat, pyGet_ofNat, pyGet_ofNat]
  norm_num [fitVertex, polyfit3, List.getD_cons_zero, List.getD_cons_succ]

/- ## The length-4 root of unity ω = e^(-2πi/4) = -i, used by concrete witnesses -/

/-- The forward DFT root for length 4: e^(−2πi/4) = −i. -/
def iC : Cq := ⟨0, -1⟩

theorem iC_conj_mul : iC.conj * iC = 1 := by
  ext <;> norm_num [iC, Cq.conj]

theorem iC_pow_two : iC ^ 2 = ⟨-1, 0⟩ := by
  rw [pow_two]
  ext <;> norm_num [iC]

theorem iC_pow_three : iC ^ 3 = ⟨0, 1⟩ := by
  rw [pow_succ, iC_pow_two]
  ext <;> norm_num [iC]

theorem iC_pow_four : iC ^ 4 = 1 := by
  rw [pow_succ, iC_pow_three]
  ext <;> norm_num [iC]

theorem iC_pow_mod (n : ℕ) : iC ^ n = iC ^ (n % 4) := by
  conv_lhs => rw [← Nat.div_add_mod n 4]
  rw [pow_add, pow_mul, iC_pow_four, one_pow, one_mul]

theorem iC_orth : ∀ d : ℕ, d % 4 ≠ 0 → ∑ k ∈ Finset.range 4, iC ^ (k * d) = 0 := by
  intro d hd
  rw [Finset.sum_range_succ, Finset.sum_range_succ, Finset.sum_range_succ,
    Finset.sum_range_one]
  rw [zero_mul, pow_zero, one_mul, iC_pow_mod (2 * d), iC_pow_mod (3 * d), iC_pow_mod d]
  have h4 : d % 4 = 1 ∨ d % 4 = 2 ∨ d % 4 = 3 := by omega
  rcases h4 with h | h | h
  · rw [h, show (2 * d) % 4 = 2 by omega, show (3 * d) % 4 = 3 by omega,
      pow_one, iC_pow_two, iC_pow_three]
    ext <;> norm_num [iC]
  · rw [h, show (2 * d) % 4 = 0 by omega, show (3 * d) % 4 = 2 by omega,
      pow_zero, iC_pow_two]
    ext <;> norm_num [iC]
  · rw [h, show (2 * d) % 4 = 2 by omega, show (3 * d) % 4 = 1 by omega,
      pow_one, iC_pow_two, iC_pow_three]
    ext <;> norm_num [iC]

theorem getD_eq_getElem (l : List Cq) (m : ℕ) (hm : m < l.length) :
    l.getD m 0 = l[m] := by
  rw [List.getD_eq_getElem?_getD, List.getElem?_eq_getElem hm]
  rfl

theorem crossCorr_mem_real (ω : Cq) (x y : List ℚ) (hlen : y.length = x.length)
    (h1 : ω ^ x.length = 1) (hu : ω.conj * ω = 1)
    (ho : ∀ d : ℕ, d % x.length ≠ 0 → ∑ k ∈ Finset.range x.length, ω ^ (k * d) = 0) :
    ∀ z ∈ crossCorr ω x y, z.im = 0 := by
  intro z hz
  obtain ⟨m, hm, rfl⟩ := List.mem_iff_getElem.mp hz
  have hmx : m < x.length := by
    have := hm
    rw [crossCorr_length, hlen, Nat.min_self] at this
    exact this
  rw [← getD_eq_getElem _ _ hm, crossCorr_getD ω x y hlen h1 hu ho m hmx]
  rfl

/-- C8 (confirmed): for each axis, the integer peak index handed to the
sub-pixel refiner is the index of the maximum of the real parts of the
circular cross-correlation sequence, and when several indices tie for that
maximum the smallest index (first occurrence in increasing-index order) is
selected.  In exact arithmetic the correlation of real projections is exactly
real, so the source's complex lookup (`max` + first `where` match) coincides
with the spec's first-occurrence argmax of real parts. -/
theorem C8_peak_index_spec (ω : Cq) (x y : List ℚ) (hlen : y.length = x.length)
    (h1 : ω ^ x.length = 1) (hu : ω.conj * ω = 1)
    (ho : ∀ d : ℕ, d % x.length ≠ 0 → ∑ k ∈ Finset.range x.length, ω ^ (k * d) = 0) :
    zpos (crossCorr ω x y) = specArgmaxReal (crossCorr ω x y) :=
  zpos_eq_specArgmax (crossCorr ω x y) (crossCorr_mem_real ω x y hlen h1 hu ho)

/-- Witness for C8: a concrete length-4 pair (the check is the reference
shifted by one sample), with ω = −i an exact length-4 DFT root. -/
theorem C8_peak_index_spec_witness :
    zpos (crossCorr iC [1, 2, 0, 0] [0, 1, 2, 0])
      = specArgmaxReal (crossCorr iC [1, 2, 0, 0] [0, 1, 2, 0]) :=
  C8_peak_index_spec iC [1, 2, 0, 0] [0, 1, 2, 0] rfl iC_pow_four iC_conj_mul iC_orth

/- ## Autocorrelation facts for the zero-shift identity -/

theorem sum_range_rot (L m : ℕ) (hL : 0 < L) (f : ℕ → ℚ) :
    ∑ j ∈ Finset.range L, f ((m + j) % L) = ∑ j ∈ Finset.range L, f j := by
  obtain ⟨n, rfl⟩ : ∃ n, L = n + 1 := ⟨L - 1, by omega⟩
  rw [← Fin.sum_univ_eq_sum_range (fun j => f ((m + j) % (n + 1))) (n + 1),
    ← Fin.sum_univ_eq_sum_range f (n + 1)]
  have key : ∀ i : Fin (n + 1), f ((m + (i : ℕ)) % (n + 1))
      = f (((⟨m % (n + 1), Nat.mod_lt _ (Nat.succ_pos n)⟩ : Fin (n + 1)) + i : Fin (n + 1)) : ℕ) := by
    intro i
    congr 1
    rw [Fin.add_def]
    show (m + (i : ℕ)) % (n + 1) = (m % (n + 1) + (i : ℕ)) % (n + 1)
    conv_lhs => rw [Nat.add_mod]
    conv_rhs => rw [Nat.add_mod, Nat.mod_mod_of_dvd _ (dvd_refl _)]
  rw [Finset.sum_congr rfl fun i _ => key i]
  exact Equiv.sum_comp
    (Equiv.addLeft (⟨m % (n + 1), Nat.mod_lt _ (Nat.succ_pos n)⟩ : Fin (n + 1)))
    fun i : Fin (n + 1) => f i

theorem ccorrSample_zero (x : List ℚ) :
    ccorrSample x x 0 = ∑ j ∈ Finset.range x.length, x.getD j 0 ^ 2 := by
  unfold ccorrSample
  refine Finset.sum_congr rfl fun j hj => ?_
  rw [zero_add, Nat.mod_eq_of_lt (Finset.mem_range.mp hj), sq]

theorem ccorrSample_le_zero (x : List ℚ) (m : ℕ) (hL : 0 < x.length) :
    ccorrSample x x m ≤ ccorrSample x x 0 := by
  rw [ccorrSample_zero]
  unfold ccorrSample
  have step1 : ∑ j ∈ Finset.range x.length, x.getD j 0 * x.getD ((m + j) % x.length) 0
      ≤ ∑ j ∈ Finset.range x.length,
          (x.getD j 0 ^ 2 + x.getD ((m + j) % x.length) 0 ^ 2) / 2 := by
    refine Finset.sum_le_sum fun j _ => ?_
    nlinarith [sq_nonneg (x.getD j 0 - x.getD ((m + j) % x.length) 0)]
  have step2 : ∑ j ∈ Finset.range x.length,
      (x.getD j 0 ^ 2 + x.getD ((m + j) % x.length) 0 ^ 2) / 2
        = ∑ j ∈ Finset.range x.length, x.getD j 0 ^ 2 := by
    have hrot := sum_range_rot x.length m hL (fun t => x.getD t 0 ^ 2)
    calc ∑ j ∈ Finset.range x.length,
        (x.getD j 0 ^ 2 + x.getD ((m + j) % x.length) 0 ^ 2) / 2
        = ((∑ j ∈ Finset.range x.length, x.getD j 0 ^ 2)
            + ∑ j ∈ Finset.range x.length, x.getD ((m + j) % x.length) 0 ^ 2) / 2 := by
          rw [← Finset.sum_add_distrib, Finset.sum_div]
      _ = ∑ j ∈ Finset.range x.length, x.getD j 0 ^ 2 := by rw [hrot]; ring
  exact le_of_le_of_eq step1 step2

theorem idx_wrap (L j : ℕ) (hj : j < L) : (L - 1 + (1 + j) % L) % L = j := by
  conv_lhs => rw [Nat.add_mod, Nat.mod_mod_of_dvd _ (dvd_refl L), ← Nat.add_mod]
  rw [show L - 1 + (1 + j) = L + j by omega, Nat.add_mod_left, Nat.mod_eq_of_lt hj]

theorem ccorrSample_symm (x : List ℚ) (hL : 0 < x.length) :
    ccorrSample x x (x.length - 1) = ccorrSample x x 1 := by
  show ∑ j ∈ Finset.range x.length,
      x.getD j 0 * x.getD ((x.length - 1 + j) % x.length) 0 = _
  rw [← sum_range_rot x.length 1 hL
    (fun t => x.getD t 0 * x.getD ((x.length - 1 + t) % x.length) 0)]
  refine Finset.sum_congr rfl fun j hj => ?_
  have hjL := Finset.mem_range.mp hj
  rw [idx_wrap x.length j hjL, mul_comm]

theorem zpos_getD_max (l : List Cq) (hne : l ≠ [])
    (h : ∀ z ∈ l, ¬ Cq.lexLt (l.getD 0 0) z) : zpos l = 0 := by
  cases l with
  | nil => exact absurd rfl hne
  | cons h0 t =>
    exact zpos_eq_zero_of_head_max h0 t fun z hz => h z (List.mem_cons_of_mem h0 hz)

theorem zpos_autocorr (ω : Cq) (x : List ℚ) (hL : 0 < x.length)
    (h1 : ω ^ x.length = 1) (hu : ω.conj * ω = 1)
    (ho : ∀ d : ℕ, d % x.length ≠ 0 → ∑ k ∈ Finset.range x.length, ω ^ (k * d) = 0) :
    zpos (crossCorr ω x x) = 0 := by
  have hlen : (crossCorr ω x x).length = x.length := by
    rw [crossCorr_length, Nat.min_self]
  apply zpos_getD_max
  · intro hnil
    rw [hnil] at hlen
    simp at hlen
    omega
  · intro z hz
    obtain ⟨m, hm, rfl⟩ := List.mem_iff_getElem.mp hz
    have hmx : m < x.length := hlen ▸ hm
    have h0 : (crossCorr ω x x).getD 0 0 = Cq.ofRat (ccorrSample x x 0) :=
      crossCorr_getD ω x x rfl h1 hu ho 0 hL
    have hzm : (crossCorr ω x x)[m] = Cq.ofRat (ccorrSample x x m) := by
      rw [← getD_eq_getElem _ _ hm, crossCorr_getD ω x x rfl h1 hu ho m hmx]
    rw [h0, hzm]
    intro hlt
    rcases hlt with hre | ⟨hre, him⟩
    · simp only [Cq.ofRat_re] at hre
      exact absurd hre (not_lt_of_ge (ccorrSample_le_zero x m hL))
    · simp only [Cq.ofRat_im] at him
      exact absurd him (lt_irrefl 0)

theorem polyfit3_b_m101 (v0 v1 v2 : ℚ) (h : v0 = v2) :
    (polyfit3 (-1) 0 1 v0 v1 v2).2 = 0 := by
  unfold polyfit3
  rw [h]
  ring

theorem polyfit3_b_10m1 (v0 v1 v2 : ℚ) (h : v0 = v2) :
    (polyfit3 1 0 (-1) v0 v1 v2).2 = 0 := by
  unfold polyfit3
  rw [h]
  ring

theorem fitVertex_b_zero (c : ℚ × ℚ) (h : c.2 = 0) : fitVertex c = 0 := by
  unfold fitVertex
  rw [h]
  simp

/-- Core of the zero-shift identity: the cross-correlation of a projection with
itself has its peak at index 0, the two neighbouring samples agree by the
circular symmetry of the autocorrelation, the fitted slope coefficient b is 0,
and both axis refinements return exactly 0. -/
theorem autocorr_shift_zero (ω : Cq) (x : List ℚ) (hL : 3 ≤ x.length)
    (h1 : ω ^ x.length = 1) (hu : ω.conj * ω = 1)
    (ho : ∀ d : ℕ, d % x.length ≠ 0 → ∑ k ∈ Finset.range x.length, ω ^ (k * d) = 0) :
    solutionX (crossCorr ω x x) = 0 ∧ solutionY (crossCorr ω x x) = 0 := by
  have hL0 : 0 < x.length := by omega
  have hlen : (crossCorr ω x x).length = x.length := by
    rw [crossCorr_length, Nat.min_self]
  have hz : zpos (crossCorr ω x x) = 0 := zpos_autocorr ω x hL0 h1 hu ho
  have hsym : ccorrSample x x (x.length - 1) = ccorrSample x x 1 := ccorrSample_symm x hL0
  have hgm : ∀ m, m < x.length →
      (crossCorr ω x x).getD m 0 = Cq.ofRat (ccorrSample x x m) := fun m hm =>
    crossCorr_getD ω x x rfl h1 hu ho m hm
  constructor
  · rw [solutionX, hz, solutionXAt_case1 (crossCorr ω x x) 0 (by positivity)]
    rw [show ((0 : ℕ) : ℤ) - 1 = (-1 : ℤ) by norm_num,
      show ((0 : ℕ) : ℤ) + 1 = (1 : ℤ) by norm_num,
      show ((0 : ℕ) : ℤ) = (0 : ℤ) by norm_num]
    rw [pyGet_neg_one _ (by omega), pyGet_zero, pyGet_one, hlen]
    rw [hgm (x.length - 1) (by omega), hgm 0 hL0, hgm 1 (by omega), hsym]
    rw [show ((0 : ℕ) : ℚ) - 1 = (-1 : ℚ) by norm_num,
      show ((0 : ℕ) : ℚ) + 1 = (1 : ℚ) by norm_num,
      show ((0 : ℕ) : ℚ) = (0 : ℚ) by norm_num]
    rw [fitVertex_b_zero _ (polyfit3_b_m101 _ _ _ rfl), neg_zero]
  · rw [solutionY, hz, solutionYAt_eq,
      if_neg (by rw [hlen]; omega : ¬ (0 : ℕ) = (crossCorr ω x x).length - 1)]
    rw [pyGet_neg_one _ (by omega), pyGet_zero, pyGet_one, hlen]
    rw [hgm (x.length - 1) (by omega), hgm 0 hL0, hgm 1 (by omega), hsym]
    rw [fitVertex_b_zero _ (polyfit3_b_10m1 _ _ _ rfl)]

/- ## 2-D image arrays and the processing pipeline -/

/-- A 2-D numpy array of pixel values: rows × cols with an entry function. -/
structure Mat where
  rows : ℕ
  cols : ℕ
  entry : ℕ → ℕ → ℚ

/-- Elementwise subtraction of same-shape arrays (`data - bkgmap`). -/
def matSub (a b : Mat) : Mat := ⟨a.rows, a.cols, fun i j => a.entry i j - b.entry i j⟩

/-- Scalar division (`data / texp`). -/
def matDivScalar (a : Mat) (t : ℚ) : Mat := ⟨a.rows, a.cols, fun i j => a.entry i j / t⟩

/-- `np.sum(data, axis=0)`: column sums, the x projection (length = cols). -/
def xproj (m : Mat) : List ℚ :=
  (List.range m.cols).map fun j => ∑ i ∈ Finset.range m.rows, m.entry i j

/-- `np.sum(data, axis=1)`: row sums, the y projection (length = rows). -/
def yproj (m : Mat) : List ℚ :=
  (List.range m.rows).map fun i => ∑ j ∈ Finset.range m.cols, m.entry i j

/-- Python slice semantics for `arr[a:b]` (step 1) on an axis of length `n`:
negative endpoints count from the end, both endpoints clamp to [0, n]; returns
(start offset, number of selected indices). -/
def pySlice (n : ℕ) (a b : ℤ) : ℕ × ℕ :=
  let lo : ℤ := max 0 (min (n : ℤ) (if a < 0 then (n : ℤ) + a else a))
  let hi : ℤ := max 0 (min (n : ℤ) (if b < 0 then (n : ℤ) + b else b))
  (lo.toNat, (hi - lo).toNat)

/-- `data[r0:r1, c0:c1]`. -/
def cropPy (m : Mat) (r0 r1 c0 c1 : ℤ) : Mat :=
  let r := pySlice m.rows r0 r1
  let c := pySlice m.cols c0 c1
  ⟨r.2, c.2, fun i j => m.entry (r.1 + i) (c.1 + j)⟩

/-- `np.median` of a list of pixel values: middle of the sorted values, or the
mean of the two middle values for an even count. -/
def np_median (l : List ℚ) : ℚ :=
  let s := l.mergeSort (fun a b => decide (a ≤ b))
  if l.length = 0 then 0
  else if l.length % 2 = 1 then s.getD (l.length / 2) 0
  else (s.getD (l.length / 2 - 1) 0 + s.getD (l.length / 2) 0) / 2

/-- The flattened pixel list of `data[r0:r1, c0:c1]` (a background tile). -/
def tileList (data : Mat) (r0 r1 c0 c1 : ℕ) : List ℚ :=
  (List.range (r1 - r0)).flatMap fun i =>
    (List.range (c1 - c0)).map fun j => data.entry (r0 + i) (c0 + j)

/-- Models `scipy.ndimage.zoom(coarse, (zy, zx), order=2)`: the documented
output geometry is `round(shape · zoom)` per axis.  The resampled pixel values
are not load-bearing for any claim here and are modelled by nearest-sample
evaluation rather than an order-2 spline. -/
def qround (q : ℚ) : ℕ := (Int.floor (q + 1 / 2)).toNat

def ndimage_zoom (m : Mat) (zy zx : ℚ) : Mat :=
  ⟨qround ((m.rows : ℚ) * zy), qround ((m.cols : ℚ) * zx),
   fun i j => m.entry (min (m.rows - 1) (Int.floor ((i : ℚ) / zy)).toNat)
                      (min (m.cols - 1) (Int.floor ((j : ℚ) / zx)).toNat)⟩

/-- Lines 65–77: `__generate_bkg_map`.  The tile sizes arrive from the caller
as true-division quotients (floats); era numpy truncates float slice bounds,
modelled with `Int.floor`.  The coarse tile-median grid is then resampled to
the data's size with `ndimage.zoom`. -/
def generate_bkg_map (data : Mat) (tile_num : ℕ) (tilesizex tilesizey : ℚ) : Mat :=
  let coarse : Mat :=
    ⟨tile_num, tile_num, fun i j =>
      np_median (tileList data
        (Int.floor ((i : ℚ) * tilesizey)).toNat
        (Int.floor (((i : ℚ) + 1) * tilesizey)).toNat
        (Int.floor ((j : ℚ) * tilesizex)).toNat
        (Int.floor (((j : ℚ) + 1) * tilesizex)).toNat)⟩
  ndimage_zoom coarse tilesizey tilesizex

/- ## Construction-time dimension policy (lines 31–40) -/

/-- The non-divisible fallback `(d / self.base) * self.base`, charitably
repaired (`dx` ↦ `self.dx`, undefined `self.base` ↦ 16 per the comment) and
with the file's `from __future__ import division` true division. -/
def dimAdjustQ (d : ℕ) : ℚ := ((d : ℚ) / 16) * 16

/-- Lines 33–40: `divmod(d, 16)` remainder test choosing between the fallback
and the raw dimensions. -/
def workingDims (dx dy : ℕ) : ℚ × ℚ :=
  if dx % 16 ≠ 0 ∨ dy % 16 ≠ 0 then (dimAdjustQ dx, dimAdjustQ dy)
  else ((dx : ℚ), (dy : ℚ))

/- ## Engine state (`Donuts.__init__`, lines 19–63) and `measure_shift` -/

/-- The instance attributes of a `Donuts` object.  Reference state is set at
construction; the per-call check/solution fields are (re)written by each
`measure_shift` call and start out absent. -/
structure DonutsState where
  boarder : ℕ
  ntiles : ℕ
  normalise : Bool
  subtract_bkg : Bool
  texp : ℚ
  dx : ℕ
  dy : ℕ
  dimx : ℚ
  dimy : ℚ
  ref_data : Mat
  w_dimx : ℕ
  w_dimy : ℕ
  tilesizex : ℚ
  tilesizey : ℚ
  bkgmap : Option Mat
  ref_xproj : List ℚ
  ref_yproj : List ℚ
  check_data : Option Mat
  check_bkgmap : Option Mat
  check_xproj : Option (List ℚ)
  check_yproj : Option (List ℚ)
  solution_n_x : Option ℚ
  solution_n_y : Option ℚ

/-- `Donuts.__init__`: record the configuration, adjust the dimensions
(lines 33–40), crop `[boarder : dimy−boarder, boarder : dimx−boarder]` (float
bounds truncated), derive tile sizes by true division, optionally subtract the
background map and normalise by exposure time, store both projections. -/
def donutsInit (refimg : Mat) (texp : ℚ) (normalise subtract_bkg : Bool)
    (boarder ntiles : ℕ) : DonutsState :=
  let dy := refimg.rows
  let dx := refimg.cols
  let dims := workingDims dx dy
  let ref0 := cropPy refimg (boarder : ℤ) (Int.floor (dims.2 - (boarder : ℚ)))
    (boarder : ℤ) (Int.floor (dims.1 - (boarder : ℚ)))
  let tilesizex := (ref0.cols : ℚ) / ntiles
  let tilesizey := (ref0.rows : ℚ) / ntiles
  let bkg := if subtract_bkg then
      some (generate_bkg_map ref0 ntiles tilesizex tilesizey) else none
  let ref1 := if subtract_bkg then
      matSub ref0 (generate_bkg_map ref0 ntiles tilesizex tilesizey) else ref0
  let ref2 := if normalise then matDivScalar ref1 texp else ref1
  { boarder := boarder, ntiles := ntiles, normalise := normalise,
    subtract_bkg := subtract_bkg, texp := texp, dx := dx, dy := dy,
    dimx := dims.1, dimy := dims.2, ref_data := ref2,
    w_dimx := ref0.cols, w_dimy := ref0.rows,
    tilesizex := tilesizex, tilesizey := tilesizey, bkgmap := bkg,
    ref_xproj := xproj ref2, ref_yproj := yproj ref2,
    check_data := none, check_bkgmap := none, check_xproj := none,
    check_yproj := none, solution_n_x := none, solution_n_y := none }

/-- Lines 93–207, `measure_shift`, as a state transformer: the check image is
cropped with the stored reference geometry, optionally background-subtracted
and normalised exactly as the reference was, projected, circularly
cross-correlated against the stored reference projections, and refined on
both axes; only the per-call check/solution fields are written.  (The source
additionally decorates the method `@property`, a defect treated under C2.) -/
def measure_shift (ωx ωy : Cq) (s : DonutsState) (checkimg : Mat) :
    DonutsState × (ℚ × ℚ) :=
  let cd0 := cropPy checkimg (s.boarder : ℤ) (Int.floor (s.dimy - (s.boarder : ℚ)))
    (s.boarder : ℤ) (Int.floor (s.dimx - (s.boarder : ℚ)))
  let cbkg := if s.subtract_bkg then
      some (generate_bkg_map cd0 s.ntiles s.tilesizex s.tilesizey) else none
  let cd1 := if s.subtract_bkg then
      matSub cd0 (generate_bkg_map cd0 s.ntiles s.tilesizex s.tilesizey) else cd0
  let cd2 := if s.normalise then matDivScalar cd1 s.texp else cd1
  let cxp := xproj cd2
  let cyp := yproj cd2
  let PhiX := crossCorr ωx s.ref_xproj cxp
  let PhiY := crossCorr ωy s.ref_yproj cyp
  let snx := solutionX PhiX
  let sny := solutionY PhiY
  let s2 : DonutsState := { s with
    check_data := some cd2
    check_bkgmap := cbkg
    check_xproj := some cxp
    check_yproj := some cyp
    solution_n_x := some snx
    solution_n_y := some sny }
  (s2, (snx, sny))

/-- C10 (confirmed): no call to measure_shift mutates the stored reference
state — after any call, ref_data, ref_xproj, ref_yproj and the geometry
fields set at construction (boarder, dimx, dimy, w_dimx, w_dimy, tilesizex,
tilesizey, ntiles, texp) hold exactly the values they held before the call;
only the per-call check/solution fields are written. -/
theorem C10_reference_state_immutable (ωx ωy : Cq) (s : DonutsState) (img : Mat) :
    (measure_shift ωx ωy s img).1.ref_data = s.ref_data
    ∧ (measure_shift ωx ωy s img).1.ref_xproj = s.ref_xproj
    ∧ (measure_shift ωx ωy s img).1.ref_yproj = s.ref_yproj
    ∧ (measure_shift ωx ωy s img).1.boarder = s.boarder
    ∧ (measure_shift ωx ωy s img).1.dimx = s.dimx
    ∧ (measure_shift ωx ωy s img).1.dimy = s.dimy
    ∧ (measure_shift ωx ωy s img).1.w_dimx = s.w_dimx
    ∧ (measure_shift ωx ωy s img).1.w_dimy = s.w_dimy
    ∧ (measure_shift ωx ωy s img).1.tilesizex = s.tilesizex
    ∧ (measure_shift ωx ωy s img).1.tilesizey = s.tilesizey
    ∧ (measure_shift ωx ωy s img).1.ntiles = s.ntiles
    ∧ (measure_shift ωx ωy s img).1.texp = s.texp :=
  ⟨rfl, rfl, rfl, rfl, rfl, rfl, rfl, rfl, rfl, rfl, rfl, rfl⟩

/-- C5 (code_bug): with the file's true division, the "rounding" branch
`(d / 16) * 16` is the identity on ℚ, so the working dimensions are never
rounded down to a multiple of 16 — for the NITES shape of the code's own
comment this returns (1030, 1057) where the spec's policy requires
(1024, 1056).  (As written the code cannot even reach this branch: line 33
reads the undefined local `dx` and line 36 the undefined attribute
`self.base`.) -/
theorem C5_no_rounding_applied (dx dy : ℕ) :
    workingDims dx dy = ((dx : ℚ), (dy : ℚ)) := by
  unfold workingDims dimAdjustQ
  have h16 : (16 : ℚ) ≠ 0 := by norm_num
  by_cases h : dx % 16 ≠ 0 ∨ dy % 16 ≠ 0
  · rw [if_pos h, div_mul_cancel₀ _ h16, div_mul_cancel₀ _ h16]
  · rw [if_neg h]

/- ## Background-map geometry (C4) -/

theorem sum_map_const (l : List ℕ) (c : ℕ) : (l.map fun _ => c).sum = l.length * c := by
  induction l with
  | nil => simp
  | cons a t ih => simp [ih, Nat.succ_mul, Nat.add_comm]

theorem tileList_length (data : Mat) (r0 r1 c0 c1 : ℕ) :
    (tileList data r0 r1 c0 c1).length = (r1 - r0) * (c1 - c0) := by
  unfold tileList
  rw [List.length_flatMap]
  rw [show (List.length ∘ fun i =>
      List.map (fun j => data.entry (r0 + i) (c0 + j)) (List.range (c1 - c0)))
      = fun _ : ℕ => c1 - c0 from funext fun i => by simp]
  rw [sum_map_const, List.length_range]

theorem qround_natCast (n : ℕ) : qround ((n : ℚ)) = n := by
  unfold qround
  have hfl : Int.floor ((n : ℚ) + 1 / 2) = (n : ℤ) := by
    rw [Int.floor_eq_iff]
    constructor
    · push_cast
      linarith
    · push_cast
      linarith
  rw [hfl, Int.toNat_natCast]

theorem tile_rows_pos (i N D : ℕ) (hN : 0 < N) (hD : N ≤ D) :
    (Int.floor ((i : ℚ) * ((D : ℚ) / N))).toNat
      < (Int.floor (((i : ℚ) + 1) * ((D : ℚ) / N))).toNat := by
  have hNq : (0 : ℚ) < (N : ℚ) := by exact_mod_cast hN
  have h1 : (1 : ℚ) ≤ (D : ℚ) / N := by
    rw [le_div_iff hNq, one_mul]
    exact_mod_cast hD
  have hge : (i : ℚ) * ((D : ℚ) / N) + 1 ≤ ((i : ℚ) + 1) * ((D : ℚ) / N) := by
    have hi0 : (0 : ℚ) ≤ (i : ℚ) := by positivity
    nlinarith
  have hfl : Int.floor ((i : ℚ) * ((D : ℚ) / N)) + 1
      ≤ Int.floor (((i : ℚ) + 1) * ((D : ℚ) / N)) := by
    calc Int.floor ((i : ℚ) * ((D : ℚ) / N)) + 1
        = Int.floor ((i : ℚ) * ((D : ℚ) / N) + 1) := (Int.floor_add_one _).symm
      _ ≤ Int.floor (((i : ℚ) + 1) * ((D : ℚ) / N)) := Int.floor_le_floor hge
  have hnn : 0 ≤ Int.floor ((i : ℚ) * ((D : ℚ) / N)) :=
    Int.floor_nonneg.mpr (by positivity)
  omega

/-- C4 (confirmed): for every 2-D input array and every tile count N with
1 ≤ N ≤ min(width, height), the background estimator does not fail —
including when the array dimensions are not exact multiples of N: every tile
slice holds at least one pixel (each median is over a nonempty sample) and
the zoom-resampled output has exactly the input's shape. -/
theorem C4_bkg_map_shape (data : Mat) (N : ℕ) (h1 : 1 ≤ N) (hw : N ≤ data.cols)
    (hh : N ≤ data.rows) :
    (generate_bkg_map data N ((data.cols : ℚ) / N) ((data.rows : ℚ) / N)).rows = data.rows
    ∧ (generate_bkg_map data N ((data.cols : ℚ) / N) ((data.rows : ℚ) / N)).cols = data.cols
    ∧ (∀ i j, i < N → j < N →
        (tileList data
          (Int.floor ((i : ℚ) * ((data.rows : ℚ) / N))).toNat
          (Int.floor (((i : ℚ) + 1) * ((data.rows : ℚ) / N))).toNat
          (Int.floor ((j : ℚ) * ((data.cols : ℚ) / N))).toNat
          (Int.floor (((j : ℚ) + 1) * ((data.cols : ℚ) / N))).toNat).length ≠ 0) := by
  have hNq : (0 : ℚ) < (N : ℚ) := by exact_mod_cast h1
  refine ⟨?_, ?_, ?_⟩
  · show qround ((N : ℚ) * ((data.rows : ℚ) / N)) = data.rows
    rw [mul_comm, div_mul_cancel₀ _ (ne_of_gt hNq), qround_natCast]
  · show qround ((N : ℚ) * ((data.cols : ℚ) / N)) = data.cols
    rw [mul_comm, div_mul_cancel₀ _ (ne_of_gt hNq), qround_natCast]
  · intro i j hi hj
    have hr := tile_rows_pos i N data.rows (by omega) hh
    have hc := tile_rows_pos j N data.cols (by omega) hw
    rw [tileList_length]
    exact Nat.mul_ne_zero (by omega) (by omega)

/-- Witness for C4 at a 3×3 array with tile count 2, the non-divisible case:
the background map has the input's 3×3 shape. -/
theorem C4_bkg_map_shape_witness :
    (generate_bkg_map (Mat.mk 3 3 fun i j => (i : ℚ) + j) 2
        (((Mat.mk 3 3 fun i j => (i : ℚ) + j).cols : ℚ) / (2 : ℕ))
        (((Mat.mk 3 3 fun i j => (i : ℚ) + j).rows : ℚ) / (2 : ℕ))).rows
      = (Mat.mk 3 3 fun i j => (i : ℚ) + j).rows
    ∧ (generate_bkg_map (Mat.mk 3 3 fun i j => (i : ℚ) + j) 2
        (((Mat.mk 3 3 fun i j => (i : ℚ) + j).cols : ℚ) / (2 : ℕ))
        (((Mat.mk 3 3 fun i j => (i : ℚ) + j).rows : ℚ) / (2 : ℕ))).cols
      = (Mat.mk 3 3 fun i j => (i : ℚ) + j).cols := by
  have h := C4_bkg_map_shape (Mat.mk 3 3 fun i j => (i : ℚ) + j) 2
    (by decide) (by decide) (by decide)
  exact ⟨h.1, h.2.1⟩

/-- C9 (confirmed): for every valid reference image, calling measure_shift
with a byte-identical copy of the reference image as the check image returns
exactly (0, 0) — in particular within the 1e-6 tolerance.  The check image is
pushed through the identical crop/background/normalise/project pipeline, so
both correlations are autocorrelations: the peak lands at index 0, the two
neighbouring samples agree by circular symmetry, the fitted b coefficient is
0 and both refinements return 0. -/
theorem C9_zero_shift_identity (ωx ωy : Cq) (refimg : Mat) (texp : ℚ)
    (normalise subtract_bkg : Bool) (boarder ntiles : ℕ) (s : DonutsState)
    (hs : s = donutsInit refimg texp normalise subtract_bkg boarder ntiles)
    (hx3 : 3 ≤ s.ref_xproj.length)
    (hy3 : 3 ≤ s.ref_yproj.length)
    (hx1 : ωx ^ s.ref_xproj.length = 1) (hxu : ωx.conj * ωx = 1)
    (hxo : ∀ d : ℕ, d % s.ref_xproj.length ≠ 0 →
        ∑ k ∈ Finset.range s.ref_xproj.length, ωx ^ (k * d) = 0)
    (hy1 : ωy ^ s.ref_yproj.length = 1) (hyu : ωy.conj * ωy = 1)
    (hyo : ∀ d : ℕ, d % s.ref_yproj.length ≠ 0 →
        ∑ k ∈ Finset.range s.ref_yproj.length, ωy ^ (k * d) = 0) :
    (measure_shift ωx ωy s refimg).2 = (0, 0) := by
  subst hs
  have hkey : (measure_shift ωx ωy
        (donutsInit refimg texp normalise subtract_bkg boarder ntiles) refimg).2
      = (solutionX (crossCorr ωx
          (donutsInit refimg texp normalise subtract_bkg boarder ntiles).ref_xproj
          (donutsInit refimg texp normalise subtract_bkg boarder ntiles).ref_xproj),
         solutionY (crossCorr ωy
          (donutsInit refimg texp normalise subtract_bkg boarder ntiles).ref_yproj
          (donutsInit refimg texp normalise subtract_bkg boarder ntiles).ref_yproj)) := rfl
  rw [hkey, (autocorr_shift_zero ωx _ hx3 hx1 hxu hxo).1,
    (autocorr_shift_zero ωy _ hy3 hy1 hyu hyo).2]

theorem donutsInitW9_xlen :
    (donutsInit (Mat.mk 4 4 fun i j => (i : ℚ) + 2 * j) 2 true false 0 2).ref_xproj.length
      = 4 := by
  have hfl : Int.floor ((((4 : ℕ) : ℚ) / 16) * 16 - ((0 : ℕ) : ℚ)) = (4 : ℤ) := by
    rw [show (((4 : ℕ) : ℚ) / 16) * 16 - ((0 : ℕ) : ℚ) = ((4 : ℤ) : ℚ) by norm_num]
    exact Int.floor_intCast 4
  simp only [donutsInit, workingDims, dimAdjustQ, xproj, matDivScalar, cropPy, pySlice,
    List.length_map, List.length_range]
  norm_num [hfl]
  rfl

theorem donutsInitW9_ylen :
    (donutsInit (Mat.mk 4 4 fun i j => (i : ℚ) + 2 * j) 2 true false 0 2).ref_yproj.length
      = 4 := by
  have hfl : Int.floor ((((4 : ℕ) : ℚ) / 16) * 16 - ((0 : ℕ) : ℚ)) = (4 : ℤ) := by
    rw [show (((4 : ℕ) : ℚ) / 16) * 16 - ((0 : ℕ) : ℚ) = ((4 : ℤ) : ℚ) by norm_num]
    exact Int.floor_intCast 4
  simp only [donutsInit, workingDims, dimAdjustQ, yproj, matDivScalar, cropPy, pySlice,
    List.length_map, List.length_range]
  norm_num [hfl]
  rfl

/-- Witness for C9: a concrete 4×4 reference (raw dimensions not divisible by
16, border 0, tile count 2, background subtraction off, normalisation on with
exposure 2) measured against itself returns exactly (0, 0), with ω = −i the
exact length-4 DFT root on both axes. -/
theorem C9_zero_shift_identity_witness :
    (measure_shift iC iC
      (donutsInit (Mat.mk 4 4 fun i j => (i : ℚ) + 2 * j) 2 true false 0 2)
      (Mat.mk 4 4 fun i j => (i : ℚ) + 2 * j)).2 = (0, 0) := by
  refine C9_zero_shift_identity iC iC (Mat.mk 4 4 fun i j => (i : ℚ) + 2 * j) 2 true false
    0 2 _ rfl ?_ ?_ ?_ iC_conj_mul ?_ ?_ iC_conj_mul ?_
  · rw [donutsInitW9_xlen]
    omega
  · rw [donutsInitW9_ylen]
    omega
  · rw [donutsInitW9_xlen]
    exact iC_pow_four
  · simp only [donutsInitW9_xlen]
    exact iC_orth
  · rw [donutsInitW9_ylen]
    exact iC_pow_four
  · simp only [donutsInitW9_ylen]
    exact iC_orth

/- ## The @property defect on measure_shift (C2) -/

/-- Outcome of a Python attribute access. -/
inductive PyAccess where
  | value : PyAccess
  | typeError : PyAccess
deriving DecidableEq

/-- Line 93: `measure_shift` is declared under the `@property` decorator. -/
def measureShiftIsProperty : Bool := true

/-- Line 94: `def measure_shift(self, checkimage)` — one required parameter
besides `self`. -/
def measureShiftRequiredParams : ℕ := 1

/-- Python attribute-access semantics: reading `d.m` for a property invokes
the getter immediately with only the instance, so a getter with any further
required parameter raises TypeError before one line of its body runs; a
plain method access just yields a bound callable. -/
def attributeAccess (isProperty : Bool) (requiredParams : ℕ) : PyAccess :=
  if isProperty then
    (if requiredParams = 0 then PyAccess.value else PyAccess.typeError)
  else PyAccess.value

/-- C2 (code_bug): `measure_shift` cannot be invoked as
`measure_shift(checkimage=path)` at all: the attribute access itself raises
TypeError (property getter called with its required `checkimage` missing), so
the file's own planned-usage block (line 214,
`x, y = d.measure_shift(checkimage='filename.fits')`) cannot execute, and no
(dx, dy) pair — complete or partial — is ever returned. -/
theorem C2_property_access_type_error :
    attributeAccess measureShiftIsProperty measureShiftRequiredParams
      = PyAccess.typeError := rfl

/- ## Missing dimension validation (C7) -/

theorem dimAdjust4_floor : Int.floor (dimAdjustQ 4 - ((0 : ℕ) : ℚ)) = (4 : ℤ) := by
  unfold dimAdjustQ
  rw [show (((4 : ℕ) : ℚ) / 16) * 16 - ((0 : ℕ) : ℚ) = ((4 : ℤ) : ℚ) by norm_num]
  exact Int.floor_intCast 4

theorem donutsInitC7_xlen :
    (donutsInit (Mat.mk 4 4 fun i j => (i : ℚ) + 2 * j) 1 false false 0 2).ref_xproj.length
      = 4 := by
  simp only [donutsInit, workingDims, dimAdjustQ, xproj, matDivScalar, cropPy, pySlice,
    List.length_map, List.length_range]
  norm_num [show (((4 : ℕ) : ℚ) / 16) * 16 - ((0 : ℕ) : ℚ) = ((4 : ℤ) : ℚ) by norm_num,
    Int.floor_intCast]
  rfl

/-- C7 (code_bug): a check image whose raw shape differs from the reference's
raw shape is not rejected — there is no dimension check anywhere in
measure_shift.  The check is sliced with the reference's crop bounds (Python
slices clamp), so an 8×8 check against a 4×4 reference yields a 4×4 working
array whose projections have exactly the reference projection's length, and
the call proceeds through correlation to a numeric result instead of failing
with DimensionMismatch. -/
theorem C7_mismatched_check_proceeds :
    (Mat.mk 8 8 fun i j => (i : ℚ) + j).rows ≠ (Mat.mk 4 4 fun i j => (i : ℚ) + 2 * j).rows
    ∧ ((measure_shift iC iC
          (donutsInit (Mat.mk 4 4 fun i j => (i : ℚ) + 2 * j) 1 false false 0 2)
          (Mat.mk 8 8 fun i j => (i : ℚ) + j)).1.check_data.map Mat.rows) = some 4
    ∧ ((measure_shift iC iC
          (donutsInit (Mat.mk 4 4 fun i j => (i : ℚ) + 2 * j) 1 false false 0 2)
          (Mat.mk 8 8 fun i j => (i : ℚ) + j)).1.check_data.map Mat.cols) = some 4
    ∧ ((measure_shift iC iC
          (donutsInit (Mat.mk 4 4 fun i j => (i : ℚ) + 2 * j) 1 false false 0 2)
          (Mat.mk 8 8 fun i j => (i : ℚ) + j)).1.check_xproj.map List.length) = some 4
    ∧ (donutsInit (Mat.mk 4 4 fun i j => (i : ℚ) + 2 * j) 1 false false 0 2).ref_xproj.length
        = 4 := by
  refine ⟨by decide, ?_, ?_, ?_, donutsInitC7_xlen⟩
  · show some ((cropPy (Mat.mk 8 8 fun i j => (i : ℚ) + j) ((0 : ℕ) : ℤ)
        (Int.floor (dimAdjustQ 4 - ((0 : ℕ) : ℚ))) ((0 : ℕ) : ℤ)
        (Int.floor (dimAdjustQ 4 - ((0 : ℕ) : ℚ)))).rows) = some 4
    rw [dimAdjust4_floor]
    rfl
  · show some ((cropPy (Mat.mk 8 8 fun i j => (i : ℚ) + j) ((0 : ℕ) : ℤ)
        (Int.floor (dimAdjustQ 4 - ((0 : ℕ) : ℚ))) ((0 : ℕ) : ℤ)
        (Int.floor (dimAdjustQ 4 - ((0 : ℕ) : ℚ)))).cols) = some 4
    rw [dimAdjust4_floor]
    rfl
  · show some ((xproj (cropPy (Mat.mk 8 8 fun i j => (i : ℚ) + j) ((0 : ℕ) : ℤ)
        (Int.floor (dimAdjustQ 4 - ((0 : ℕ) : ℚ))) ((0 : ℕ) : ℤ)
        (Int.floor (dimAdjustQ 4 - ((0 : ℕ) : ℚ))))).length) = some 4
    rw [dimAdjust4_floor]
    rfl

/- ## Missing degenerate-signal detection (C6) -/

theorem donutsInitFlat_xproj :
    (donutsInit (Mat.mk 4 4 fun i j => (5 : ℚ)) 1 false false 0 2).ref_xproj
      = [20, 20, 20, 20] := by
  show xproj (cropPy (Mat.mk 4 4 fun i j => (5 : ℚ)) ((0 : ℕ) : ℤ)
      (Int.floor (dimAdjustQ 4 - ((0 : ℕ) : ℚ))) ((0 : ℕ) : ℤ)
      (Int.floor (dimAdjustQ 4 - ((0 : ℕ) : ℚ)))) = [20, 20, 20, 20]
  rw [dimAdjust4_floor]
  show [∑ i ∈ Finset.range 4, (5 : ℚ), ∑ i ∈ Finset.range 4, (5 : ℚ),
        ∑ i ∈ Finset.range 4, (5 : ℚ), ∑ i ∈ Finset.range 4, (5 : ℚ)] = [20, 20, 20, 20]
  norm_num [Finset.sum_range_succ]

theorem donutsInitFlat_yproj :
    (donutsInit (Mat.mk 4 4 fun i j => (5 : ℚ)) 1 false false 0 2).ref_yproj
      = [20, 20, 20, 20] := by
  show yproj (cropPy (Mat.mk 4 4 fun i j => (5 : ℚ)) ((0 : ℕ) : ℤ)
      (Int.floor (dimAdjustQ 4 - ((0 : ℕ) : ℚ))) ((0 : ℕ) : ℤ)
      (Int.floor (dimAdjustQ 4 - ((0 : ℕ) : ℚ)))) = [20, 20, 20, 20]
  rw [dimAdjust4_floor]
  show [∑ j ∈ Finset.range 4, (5 : ℚ), ∑ j ∈ Finset.range 4, (5 : ℚ),
        ∑ j ∈ Finset.range 4, (5 : ℚ), ∑ j ∈ Finset.range 4, (5 : ℚ)] = [20, 20, 20, 20]
  norm_num [Finset.sum_range_succ]

theorem flat_ccorr (m : ℕ) (hm : m < 4) :
    (crossCorr iC [(20 : ℚ), 20, 20, 20] [(20 : ℚ), 20, 20, 20]).getD m 0
      = Cq.ofRat 1600 := by
  rw [crossCorr_getD iC [(20 : ℚ), 20, 20, 20] [(20 : ℚ), 20, 20, 20] rfl iC_pow_four
    iC_conj_mul iC_orth m hm]
  congr 1
  interval_cases m <;>
    norm_num [ccorrSample, Finset.sum_range_succ, List.getD_cons_zero, List.getD_cons_succ]

/-- C6 (code_bug): a perfectly flat (constant-valued) image flows through
measure_shift with no degenerate-signal check.  The correlation sequence is
constant (every sample 1600 for the flat 4×4 image of 5s), the peak falls at
index 0, the three fitted samples are equal so the fitted coefficients are
a = 0 and b = 0, and the code divides −b by 2a = 0: NumPy emits (nan, nan)
instead of raising DegenerateSignal.  In this exact model, where x/0 = 0 in
ℚ, the division-by-zero artefact surfaces as a returned junk pair (0, 0). -/
theorem C6_flat_no_degenerate_check :
    ((crossCorr iC
        (donutsInit (Mat.mk 4 4 fun i j => (5 : ℚ)) 1 false false 0 2).ref_xproj
        (donutsInit (Mat.mk 4 4 fun i j => (5 : ℚ)) 1 false false 0 2).ref_xproj).getD 3 0
      = Cq.ofRat 1600)
    ∧ ((crossCorr iC
        (donutsInit (Mat.mk 4 4 fun i j => (5 : ℚ)) 1 false false 0 2).ref_xproj
        (donutsInit (Mat.mk 4 4 fun i j => (5 : ℚ)) 1 false false 0 2).ref_xproj).getD 0 0
      = Cq.ofRat 1600)
    ∧ ((crossCorr iC
        (donutsInit (Mat.mk 4 4 fun i j => (5 : ℚ)) 1 false false 0 2).ref_xproj
        (donutsInit (Mat.mk 4 4 fun i j => (5 : ℚ)) 1 false false 0 2).ref_xproj).getD 1 0
      = Cq.ofRat 1600)
    ∧ zpos (crossCorr iC
        (donutsInit (Mat.mk 4 4 fun i j => (5 : ℚ)) 1 false false 0 2).ref_xproj
        (donutsInit (Mat.mk 4 4 fun i j => (5 : ℚ)) 1 false false 0 2).ref_xproj) = 0
    ∧ (polyfit3 (-1) 0 1 1600 1600 1600).1 = 0
    ∧ (polyfit3 (-1) 0 1 1600 1600 1600).2 = 0
    ∧ (measure_shift iC iC
        (donutsInit (Mat.mk 4 4 fun i j => (5 : ℚ)) 1 false false 0 2)
        (Mat.mk 4 4 fun i j => (5 : ℚ))).2 = (0, 0) := by
  have hx := donutsInitFlat_xproj
  have hy := donutsInitFlat_yproj
  refine ⟨?_, ?_, ?_, ?_, by norm_num [polyfit3], by norm_num [polyfit3], ?_⟩
  · rw [hx]
    exact flat_ccorr 3 (by omega)
  · rw [hx]
    exact flat_ccorr 0 (by omega)
  · rw [hx]
    exact flat_ccorr 1 (by omega)
  · rw [hx]
    exact zpos_autocorr iC [(20 : ℚ), 20, 20, 20] (by norm_num) iC_pow_four
      iC_conj_mul iC_orth
  · have hkey : (measure_shift iC iC
        (donutsInit (Mat.mk 4 4 fun i j => (5 : ℚ)) 1 false false 0 2)
        (Mat.mk 4 4 fun i j => (5 : ℚ))).2
        = (solutionX (crossCorr iC
            (donutsInit (Mat.mk 4 4 fun i j => (5 : ℚ)) 1 false false 0 2).ref_xproj
            (donutsInit (Mat.mk 4 4 fun i j => (5 : ℚ)) 1 false false 0 2).ref_xproj),
           solutionY (crossCorr iC
            (donutsInit (Mat.mk 4 4 fun i j => (5 : ℚ)) 1 false false 0 2).ref_yproj
            (donutsInit (Mat.mk 4 4 fun i j => (5 : ℚ)) 1 false false 0 2).ref_yproj)) := rfl
    rw [hkey, hx, hy,
      (autocorr_shift_zero iC [(20 : ℚ), 20, 20, 20] (by norm_num) iC_pow_four
        iC_conj_mul iC_orth).1,
      (autocorr_shift_zero iC [(20 : ℚ), 20, 20, 20] (by norm_num) iC_pow_four
        iC_conj_mul iC_orth).2]
